import Mathlib

/-!
Verification of the `gup` release helper (two scripts: `gup/__main__.py` and
`gup.py`) against its natural-language specification.

Python strings are modelled as `List Char`.  Python `str.strip` is modelled
over the ASCII whitespace characters; `str.splitlines` together with
`"\n".join` is modelled for the newline character `'\n'`, which is the only
line separator the scripts themselves produce.  Nonnegative Python integers
are `Nat`, and `str(n)` is `natStr n` (decimal rendering).  The external
`git` and `llm` collaborators appear as explicit inputs: the set of existing
tags, the results of config queries, and the observable behaviour of the
text-generation subprocess.
-/

/-- ASCII whitespace, as recognised by Python's `str.strip`. -/
def pyIsSpace (c : Char) : Bool :=
  c = ' ' || c = '\t' || c = '\n' || c = '\r' || c = '\x0b' || c = '\x0c'

/-- Leading-whitespace removal (the left half of Python `str.strip`). -/
def dropLeading (l : List Char) : List Char := l.dropWhile pyIsSpace

/-- Trailing-whitespace removal (the right half of Python `str.strip`). -/
def dropTrailing (l : List Char) : List Char :=
  (l.reverse.dropWhile pyIsSpace).reverse

/-- Python `str.strip`. -/
def pyStrip (l : List Char) : List Char := dropTrailing (dropLeading l)

/-- Split at each `'\n'`, keeping a (possibly empty) final segment.
`splitOnNl "a\nb" = ["a", "b"]`, `splitOnNl "a\n" = ["a", ""]`. -/
def splitOnNl : List Char → List (List Char)
  | [] => [[]]
  | c :: rest =>
    if c = '\n' then [] :: splitOnNl rest
    else
      match splitOnNl rest with
      | [] => [[c]]
      | x :: xs => (c :: x) :: xs

/-- Python `str.splitlines` (for `'\n'`-separated text): empty string gives
no lines, and a trailing newline does not produce a trailing empty line. -/
def splitlines (l : List Char) : List (List Char) :=
  if l = [] then []
  else if l.getLast? = some '\n' then (splitOnNl l).dropLast
  else splitOnNl l

/-- Python `"\n".join`. -/
def joinLines : List (List Char) → List Char
  | [] => []
  | [x] => x
  | x :: y :: ys => x ++ '\n' :: joinLines (y :: ys)

/-- The first line of a text (everything before the first `'\n'`). -/
def firstLine (l : List Char) : List Char := l.takeWhile (fun c => c ≠ '\n')

/-- Python `s.rsplit(" ", 1)[0]` for a string known to contain a space:
everything strictly before the last `' '`. -/
def beforeLastSpace (l : List Char) : List Char :=
  ((l.reverse.dropWhile (fun c => c ≠ ' ')).tail).reverse

/-- The cut computation shared verbatim by both normalizers:
`cut = s[:limit]; if " " in cut: cut = cut.rsplit(" ", 1)[0]`. -/
def enfCut (limit : Nat) (s : List Char) : List Char :=
  if (s.take limit).contains ' ' then beforeLastSpace (s.take limit)
  else s.take limit

/-- `enforce_summary_limit` from `gup/__main__.py` (default limit 72):
split the stripped message into lines; if the first line fits, return the
message unchanged; otherwise hard-cut the first line at `limit` characters,
back up to the last space inside the cut when one exists, and rejoin. -/
def enforce_summary_limit (limit : Nat) (msg : List Char) : List Char :=
  match splitlines (pyStrip msg) with
  | [] => msg
  | s :: rest =>
    if s.length ≤ limit then msg
    else joinLines (enfCut limit s :: rest)

/-- `truncate_summary` from `gup.py` (default limit 80): strip, return the
stripped text if it fits, otherwise hard-cut at `limit`, back up to the last
space inside the cut when one exists, and append an ellipsis character. -/
def truncate_summary (limit : Nat) (s : List Char) : List Char :=
  if (pyStrip s).length ≤ limit then pyStrip s
  else enfCut limit (pyStrip s) ++ ['…']

/-- Fuelled decimal rendering: digits of `n`, most significant first. -/
def natStrAux : Nat → Nat → List Char
  | 0, _ => []
  | _ + 1, 0 => []
  | fuel + 1, n + 1 =>
    natStrAux fuel ((n + 1) / 10) ++ [Nat.digitChar ((n + 1) % 10)]

/-- Python `str(n)` for a nonnegative integer `n`. -/
def natStr (n : Nat) : List Char :=
  if n = 0 then ['0'] else natStrAux n n

/-- The tag string `f"v{major}.{minor}.{k}"`. -/
def mkTag (major minor k : Nat) : List Char :=
  'v' :: (natStr major ++ '.' :: (natStr minor ++ '.' :: natStr k))

/-- The loop of `next_free_version` from `gup/__main__.py`, with explicit
fuel: try `v{major}.{minor}.{patch+1}`; if that tag exists, increment the
patch number and retry.  `none` means the fuel ran out before an unused tag
was found; `nextFreeFuel_isSome` below proves that `used.card + 1` units of
fuel always suffice. -/
def nextFreeFuel (used : Finset (List Char)) (major minor : Nat) :
    Nat → Nat → Option (List Char)
  | _, 0 => none
  | patch, fuel + 1 =>
    let candidate := mkTag major minor (patch + 1)
    if candidate ∈ used then nextFreeFuel used major minor (patch + 1) fuel
    else some candidate

/-- `next_free_version` from `gup/__main__.py`, where `used` is the set of
tags for which `tag_exists` answers true.  The fuel bound `used.card + 1` is
proved sufficient, so the default value is never returned. -/
def next_free_version (used : Finset (List Char)) (major minor patch : Nat) :
    List Char :=
  (nextFreeFuel used major minor patch (used.card + 1)).getD []

/-- `next_version` from `gup.py`: a single unconditional patch bump with no
existence check. -/
def next_version (major minor patch : Nat) : List Char :=
  mkTag major minor (patch + 1)

/-- The provenance tag attached to a resolved identity. -/
inductive Provenance where
  | repo
  | globalScope
  | prompted
  | noneFound
deriving DecidableEq, Repr

/-- The behaviour of an *unscoped* `git config <key>` read inside a
repository: the repo-scoped value when set, otherwise the global-scoped
value (system scope and environment overrides are not modelled). -/
def gitConfigMerged (localVal globalVal : List Char) : List Char :=
  if localVal ≠ [] then localVal else globalVal

/-- `read_identity` from `gup/__main__.py`, as a function of the underlying
config state (repo-scoped and global-scoped `user.name` / `user.email`).
The first two queries in the source are *unscoped* `git config user.name` /
`user.email`, which git answers with the merged (repo-else-global) value;
the next two are the explicit `--global` reads.  Python string truthiness is
non-emptiness. -/
def read_identity (localName localEmail gName gEmail : List Char) :
    List Char × List Char × Provenance :=
  let n := gitConfigMerged localName gName
  let e := gitConfigMerged localEmail gEmail
  if n ≠ [] ∨ e ≠ [] then (n, e, .repo)
  else if gName ≠ [] ∨ gEmail ≠ [] then (gName, gEmail, .globalScope)
  else ([], [], .noneFound)

/-- The draft-summary heuristic of `gup/__main__.py` (`commit_msg`):
"Initial commit" on a bootstrap run, "Update project configuration" for a
single staged file, otherwise "Update N project files". -/
def commit_msg (bootstrap : Bool) (files : List (List Char)) : List Char :=
  if bootstrap then ("Initial commit".data)
  else if files.length = 1 then ("Update project configuration".data)
  else ("Update ".data) ++ natStr files.length ++ (" project files".data)

/-- The observable behaviour of one invocation of the `llm` subprocess. -/
inductive SubprocBehavior where
  | launchFailure (e : List Char)
  | timeout
  | completes (out err : List Char)

/-- The body of the `try` block of `generate_message` in `gup/__main__.py`:
an uncaught launch failure surfaces as an exception (`Except.error`). -/
def generate_message_body (draft : List Char) (b : SubprocBehavior) :
    Except (List Char) (List Char × Option (List Char)) :=
  match b with
  | .launchFailure e => .error e
  | .timeout => .ok (draft, some ("AI request timed out".data))
  | .completes out err =>
    if pyStrip out ≠ [] then .ok (enforce_summary_limit 72 (pyStrip out), none)
    else
      .ok (draft,
        some (if pyStrip err ≠ [] then pyStrip err
              else ("AI returned empty output".data)))

/-- `generate_message` from `gup/__main__.py`: the `try` body with its
`except Exception` handler, which converts any exception into the prior
draft plus the stringified exception as the failure reason. -/
def generate_message (draft : List Char) (b : SubprocBehavior) :
    List Char × Option (List Char) :=
  match generate_message_body draft b with
  | .ok r => r
  | .error e => (draft, some e)

/-- `needle` occurs at the start of the second list. -/
def startsWith : List Char → List Char → Bool
  | [], _ => true
  | _ :: _, [] => false
  | c :: cs, d :: ds => c = d && startsWith cs ds

/-- Python's substring test `needle in haystack`. -/
def containsSub (needle : List Char) : List Char → Bool
  | [] => startsWith needle []
  | c :: t => startsWith needle (c :: t) || containsSub needle t

/-- The refusal-phrase detector of `gup.py`: case-insensitive substring
match of two fixed phrases against the raw output. -/
def refusalDetected (out : List Char) : Bool :=
  let lower := out.map Char.toLower
  containsSub ("what would you like me to".data) lower ||
    containsSub ("please provide me".data) lower

/-- `generate_ai_commit_message` from `gup.py`: every subprocess exception
(timeout included) is caught and yields `none`; empty or shorter-than-10
trimmed output yields `none`; refusal phrasing yields `none`; otherwise the
trimmed output is accepted. -/
def generate_ai_commit_message (b : SubprocBehavior) : Option (List Char) :=
  match b with
  | .launchFailure _ => none
  | .timeout => none
  | .completes out _ =>
    if out = [] ∨ (pyStrip out).length < 10 then none
    else if refusalDetected out then none
    else some (pyStrip out)

/-- The final commit/tag message of `gup/__main__.py`: the draft, a blank
line, then `Version:` and `Timestamp:` lines, and a trailing newline. -/
def final_msg_main (cm tag ts : List Char) : List Char :=
  cm ++ '\n' :: '\n' :: (("Version: ".data) ++ tag) ++
    '\n' :: (("Timestamp: ".data) ++ ts) ++ ['\n']

/-- The final commit/tag message of `gup.py`: a `Version: <tag> — <title>`
line and a `Timestamp:` line first, then a blank line and the body. -/
def final_msg_gup (tag title ts cm : List Char) : List Char :=
  ("Version: ".data) ++ tag ++ (" — ".data) ++ title ++
    '\n' :: (("Timestamp: ".data) ++ ts) ++ '\n' :: '\n' :: cm ++ ['\n']

/-- The no-staged-changes guard of `gup.py`: `changed` is the stripped
output of `git diff --cached --name-only`; an empty result exits with
code 3 before any commit, tag or push of the release is attempted
(`some code` = the process exits here, `none` = the run continues). -/
def no_staged_exit_gup (changed : List Char) : Option Nat :=
  if changed = [] then some 3 else none

/-- The no-staged-changes guard of `gup/__main__.py`: `files` is
`safe(...).splitlines()`; an empty list prints the dashboard and exits with
code 0 before any commit, tag or push is attempted. -/
def no_staged_exit_main (stagedOut : List Char) : Option Nat :=
  if splitlines stagedOut = [] then some 0 else none

example : splitOnNl ("a\nb".data) = [['a'], ['b']] := by decide
example : splitlines ("a\n".data) = [['a']] := by decide
example : splitlines [] = [] := by decide
example : pyStrip ("  ab ".data) = ['a', 'b'] := by decide
example : natStr 305 = ['3', '0', '5'] := by decide
example : mkTag 1 2 5 = ("v1.2.5".data) := by decide
example : beforeLastSpace ("ab cd".data) = ['a', 'b'] := by decide
example : enforce_summary_limit 3 ("abcde fg".data) = ("abc".data) := by decide
example : truncate_summary 4 ("ab cde".data) = ("ab…".data) := by decide

/-! ### Basic facts about the string model -/

theorem dropWhile_head_false {p : Char → Bool} {l : List Char} {c : Char}
    {t : List Char} (h : l.dropWhile p = c :: t) : p c = false := by
  have hm := List.head?_dropWhile_not p l
  rw [h] at hm
  simpa using hm

theorem exists_append_dropWhile (p : Char → Bool) (l : List Char) :
    ∃ u, (∀ c ∈ u, p c = true) ∧ l = u ++ l.dropWhile p :=
  ⟨l.takeWhile p, fun _ hc => List.mem_takeWhile_imp hc,
    (List.takeWhile_append_dropWhile p l).symm⟩

theorem dropTrailing_spec (l : List Char) :
    ∃ u, (∀ c ∈ u, pyIsSpace c = true) ∧ l = dropTrailing l ++ u := by
  obtain ⟨u, hu, hl⟩ := exists_append_dropWhile pyIsSpace l.reverse
  refine ⟨u.reverse, fun c hc => hu c (List.mem_reverse.mp hc), ?_⟩
  calc l = l.reverse.reverse := (List.reverse_reverse l).symm
    _ = (u ++ l.reverse.dropWhile pyIsSpace).reverse := by rw [← hl]
    _ = dropTrailing l ++ u.reverse := by
        rw [List.reverse_append]; rfl

theorem dropTrailing_head {l : List Char} {c : Char} {t : List Char}
    (h : dropTrailing l = c :: t) : ∃ t2, l = c :: t2 := by
  obtain ⟨u, _, hl⟩ := dropTrailing_spec l
  rw [h] at hl
  exact ⟨t ++ u, by simpa using hl⟩

theorem dropTrailing_getLast {l : List Char} (h : dropTrailing l ≠ []) :
    ∃ c, (dropTrailing l).getLast? = some c ∧ pyIsSpace c = false := by
  unfold dropTrailing at h ⊢
  rcases hr : l.reverse.dropWhile pyIsSpace with _ | ⟨c, t⟩
  · rw [hr] at h; simp at h
  · refine ⟨c, ?_, dropWhile_head_false hr⟩
    simp

theorem pyStrip_head {l : List Char} {c : Char} {t : List Char}
    (h : pyStrip l = c :: t) : pyIsSpace c = false := by
  obtain ⟨t2, h2⟩ := dropTrailing_head (l := dropLeading l) h
  exact dropWhile_head_false (p := pyIsSpace) h2

theorem pyStrip_getLast {l : List Char} (h : pyStrip l ≠ []) :
    ∃ c, (pyStrip l).getLast? = some c ∧ pyIsSpace c = false :=
  dropTrailing_getLast h

theorem dropWhile_eq_self_of_head {p : Char → Bool} {l : List Char}
    (h : ∀ c t, l = c :: t → p c = false) : l.dropWhile p = l := by
  cases l with
  | nil => rfl
  | cons c t => simp [List.dropWhile_cons, h c t rfl]

theorem pyStrip_eq_self {l : List Char}
    (hh : ∀ c t, l = c :: t → pyIsSpace c = false)
    (hl : ∀ c, l.getLast? = some c → pyIsSpace c = false) : pyStrip l = l := by
  have h1 : dropLeading l = l := dropWhile_eq_self_of_head hh
  unfold pyStrip dropTrailing
  rw [h1]
  have h2 : l.reverse.dropWhile pyIsSpace = l.reverse := by
    apply dropWhile_eq_self_of_head
    intro c t hc
    apply hl
    rw [← List.head?_reverse, hc]
    rfl
  rw [h2, List.reverse_reverse]

/-! ### Facts about `splitOnNl`, `splitlines` and `joinLines` -/

theorem splitOnNl_ne_nil (l : List Char) : splitOnNl l ≠ [] := by
  cases l with
  | nil => simp [splitOnNl]
  | cons c rest =>
    simp only [splitOnNl]
    split
    · simp
    · split <;> simp

theorem splitOnNl_cons_ex (l : List Char) :
    ∃ x xs, splitOnNl l = x :: xs := by
  rcases h : splitOnNl l with _ | ⟨x, xs⟩
  · exact absurd h (splitOnNl_ne_nil l)
  · exact ⟨x, xs, rfl⟩

theorem joinLines_splitOnNl (l : List Char) : joinLines (splitOnNl l) = l := by
  induction l with
  | nil => rfl
  | cons c rest ih =>
    simp only [splitOnNl]
    by_cases h : c = '\n'
    · subst h
      rw [if_pos rfl]
      obtain ⟨x, xs, hx⟩ := splitOnNl_cons_ex rest
      rw [hx]
      calc joinLines ([] :: x :: xs) = '\n' :: joinLines (x :: xs) := rfl
        _ = '\n' :: rest := by rw [← hx, ih]
    · rw [if_neg h]
      obtain ⟨x, xs, hx⟩ := splitOnNl_cons_ex rest
      rw [hx]
      rw [hx] at ih
      cases xs with
      | nil =>
        have hx' : joinLines [x] = x := rfl
        rw [hx'] at ih
        show c :: x = c :: rest
        rw [ih]
      | cons y ys =>
        calc joinLines ((c :: x) :: y :: ys)
            = (c :: x) ++ '\n' :: joinLines (y :: ys) := rfl
          _ = c :: (x ++ '\n' :: joinLines (y :: ys)) := by simp
          _ = c :: joinLines (x :: y :: ys) := rfl
          _ = c :: rest := by rw [ih]

theorem mem_splitOnNl_no_nl {l x : List Char} (hx : x ∈ splitOnNl l) :
    '\n' ∉ x := by
  induction l generalizing x with
  | nil =>
    simp [splitOnNl] at hx
    subst hx; simp
  | cons c rest ih =>
    simp only [splitOnNl] at hx
    by_cases h : c = '\n'
    · rw [if_pos h] at hx
      rcases List.mem_cons.mp hx with rfl | hx
      · simp
      · exact ih hx
    · rw [if_neg h] at hx
      obtain ⟨y, ys, hy⟩ := splitOnNl_cons_ex rest
      rw [hy] at hx
      rcases List.mem_cons.mp hx with rfl | hx
      · intro hmem
        rcases List.mem_cons.mp hmem with hc | hc
        · exact h hc.symm
        · exact ih (hy ▸ List.mem_cons_self y ys) hc
      · exact ih (hy ▸ List.mem_cons_of_mem y hx)

theorem splitOnNl_no_nl {l : List Char} (h : '\n' ∉ l) : splitOnNl l = [l] := by
  induction l with
  | nil => rfl
  | cons c rest ih =>
    have hc : c ≠ '\n' := fun hc => h (hc ▸ List.mem_cons_self c rest)
    have hr : '\n' ∉ rest := fun hr => h (List.mem_cons_of_mem c hr)
    simp only [splitOnNl, if_neg hc, ih hr]

theorem getLast?_append_right {a b : List Char} (h : b ≠ []) :
    (a ++ b).getLast? = b.getLast? := by
  obtain ⟨c, hc⟩ := Option.isSome_iff_exists.mp (List.getLast?_isSome.mpr h)
  rw [List.getLast?_append, hc]
  rfl

theorem splitOnNl_cons_nl (m : List Char) :
    splitOnNl ('\n' :: m) = [] :: splitOnNl m := by
  simp [splitOnNl]

theorem splitOnNl_cons_ne {c : Char} (hc : ¬ c = '\n') {m x : List Char}
    {xs : List (List Char)} (hm : splitOnNl m = x :: xs) :
    splitOnNl (c :: m) = (c :: x) :: xs := by
  simp [splitOnNl, if_neg hc, hm]

theorem splitOnNl_append (a b : List Char) :
    splitOnNl (a ++ '\n' :: b) =
      (splitOnNl a).dropLast ++ ((splitOnNl a).getLastD []) :: splitOnNl b := by
  induction a with
  | nil =>
    rw [List.nil_append, splitOnNl_cons_nl]
    rfl
  | cons c rest ih =>
    obtain ⟨r, rs, hr⟩ := splitOnNl_cons_ex rest
    rw [hr] at ih
    by_cases hc : c = '\n'
    · subst hc
      rw [List.cons_append, splitOnNl_cons_nl, ih, splitOnNl_cons_nl, hr]
      cases rs <;> rfl
    · obtain ⟨m1, ms1, hm1⟩ := splitOnNl_cons_ex (rest ++ '\n' :: b)
      rw [hm1] at ih
      rw [List.cons_append, splitOnNl_cons_ne hc hm1, splitOnNl_cons_ne hc hr]
      cases rs with
      | nil =>
        have ih' : m1 :: ms1 = r :: splitOnNl b := ih
        obtain ⟨h1, h2⟩ := List.cons.inj ih'
        show (c :: m1) :: ms1 = (c :: r) :: splitOnNl b
        rw [h1, h2]
      | cons r2 rs2 =>
        rw [List.getLastD_cons, List.getLastD_cons] at ih
        rw [List.getLastD_cons, List.getLastD_cons]
        have ih' : m1 :: ms1 =
            r :: ((r2 :: rs2).dropLast ++ (rs2.getLastD r2) :: splitOnNl b) := ih
        obtain ⟨h1, h2⟩ := List.cons.inj ih'
        show (c :: m1) :: ms1 =
          (c :: r) :: ((r2 :: rs2).dropLast ++ (rs2.getLastD r2) :: splitOnNl b)
        rw [h1, h2]

theorem splitOnNl_joinLines {L : List (List Char)} (h : ∀ x ∈ L, '\n' ∉ x)
    (hne : L ≠ []) : splitOnNl (joinLines L) = L := by
  induction L with
  | nil => exact absurd rfl hne
  | cons x L ih =>
    cases L with
    | nil =>
      have hj : joinLines [x] = x := rfl
      rw [hj, splitOnNl_no_nl (h x (List.mem_cons_self x []))]
    | cons y L2 =>
      have hx : '\n' ∉ x := h x (List.mem_cons_self _ _)
      have hrest : ∀ z ∈ y :: L2, '\n' ∉ z :=
        fun z hz => h z (List.mem_cons_of_mem x hz)
      have hj : joinLines (x :: y :: L2) = x ++ '\n' :: joinLines (y :: L2) := rfl
      rw [hj, splitOnNl_append, splitOnNl_no_nl hx, ih hrest (by simp)]
      rfl

theorem head_splitOnNl {l x : List Char} {xs : List (List Char)}
    (h : splitOnNl l = x :: xs) : x = firstLine l := by
  induction l generalizing x xs with
  | nil =>
    have h' : ([] : List Char) :: ([] : List (List Char)) = x :: xs := h
    obtain ⟨h1, _⟩ := List.cons.inj h'
    rw [← h1]; rfl
  | cons c rest ih =>
    by_cases hc : c = '\n'
    · subst hc
      rw [splitOnNl_cons_nl] at h
      obtain ⟨h1, _⟩ := List.cons.inj h
      rw [← h1]
      simp [firstLine, List.takeWhile_cons]
    · obtain ⟨r, rs, hr⟩ := splitOnNl_cons_ex rest
      rw [splitOnNl_cons_ne hc hr] at h
      obtain ⟨h1, _⟩ := List.cons.inj h
      rw [← h1, ih hr]
      simp [firstLine, List.takeWhile_cons, hc]

theorem firstLine_no_nl (l : List Char) : '\n' ∉ firstLine l := by
  intro h
  have := List.mem_takeWhile_imp h
  simp at this

theorem firstLine_of_no_nl {l : List Char} (h : '\n' ∉ l) : firstLine l = l := by
  unfold firstLine
  rw [List.takeWhile_eq_self_iff.mpr]
  intro x hx
  simp only [decide_eq_true_eq]
  exact fun he => h (he ▸ hx)

theorem firstLine_append_nl {a : List Char} (b : List Char) (h : '\n' ∉ a) :
    firstLine (a ++ '\n' :: b) = a := by
  induction a with
  | nil => simp [firstLine, List.takeWhile_cons]
  | cons c t ih =>
    have hc : c ≠ '\n' := fun hce => h (hce ▸ List.mem_cons_self c t)
    have ht : '\n' ∉ t := fun htm => h (List.mem_cons_of_mem c htm)
    show firstLine (c :: (t ++ '\n' :: b)) = c :: t
    have hstep : firstLine (c :: (t ++ '\n' :: b)) =
        c :: firstLine (t ++ '\n' :: b) := by
      simp [firstLine, List.takeWhile_cons, hc]
    rw [hstep, ih ht]

theorem beforeLastSpace_spec {l : List Char} (h : ' ' ∈ l) :
    ∃ t, l = beforeLastSpace l ++ ' ' :: t := by
  obtain ⟨u, hu, hl⟩ :=
    exists_append_dropWhile (fun c => decide (c ≠ ' ')) l.reverse
  rcases hd : l.reverse.dropWhile (fun c => decide (c ≠ ' ')) with _ | ⟨c, t⟩
  · rw [hd, List.append_nil] at hl
    have hm : ' ' ∈ l.reverse := List.mem_reverse.mpr h
    rw [hl] at hm
    have := hu ' ' hm
    simp at this
  · have hc : c = ' ' := by
      have := dropWhile_head_false hd
      simpa using this
    subst hc
    refine ⟨u.reverse, ?_⟩
    have hb : beforeLastSpace l = t.reverse := by
      unfold beforeLastSpace
      rw [hd]
      rfl
    rw [hd] at hl
    rw [hb]
    calc l = l.reverse.reverse := (List.reverse_reverse l).symm
      _ = (u ++ ' ' :: t).reverse := by rw [← hl]
      _ = t.reverse ++ ' ' :: u.reverse := by simp

theorem two_le_splitOnNl_of_mem {l : List Char} (h : '\n' ∈ l) :
    2 ≤ (splitOnNl l).length := by
  induction l with
  | nil => simp at h
  | cons c rest ih =>
    by_cases hc : c = '\n'
    · subst hc
      rw [splitOnNl_cons_nl]
      have h1 : 0 < (splitOnNl rest).length :=
        List.length_pos.mpr (splitOnNl_ne_nil rest)
      simp only [List.length_cons]
      omega
    · have hm : '\n' ∈ rest := by
        rcases List.mem_cons.mp h with h1 | h1
        · exact absurd h1.symm hc
        · exact h1
      obtain ⟨r, rs, hr⟩ := splitOnNl_cons_ex rest
      rw [splitOnNl_cons_ne hc hr]
      have := ih hm
      rw [hr] at this
      simpa using this

theorem splitlines_eq_nil {l : List Char} (h : splitlines l = []) : l = [] := by
  by_contra hne
  unfold splitlines at h
  rw [if_neg hne] at h
  by_cases he : l.getLast? = some '\n'
  · rw [if_pos he] at h
    have hmem : '\n' ∈ l := List.mem_of_getLast?_eq_some he
    have h2 := two_le_splitOnNl_of_mem hmem
    have h3 : (splitOnNl l).dropLast.length = (splitOnNl l).length - 1 :=
      List.length_dropLast _
    rw [h] at h3
    simp at h3
    omega
  · rw [if_neg he] at h
    exact splitOnNl_ne_nil l h

theorem head_splitlines {l x : List Char} {xs : List (List Char)}
    (h : splitlines l = x :: xs) : x = firstLine l := by
  unfold splitlines at h
  by_cases hn : l = []
  · rw [if_pos hn] at h
    exact absurd h (by simp)
  · rw [if_neg hn] at h
    obtain ⟨r, rs, hr⟩ := splitOnNl_cons_ex l
    by_cases he : l.getLast? = some '\n'
    · rw [if_pos he, hr] at h
      cases rs with
      | nil => simp at h
      | cons r2 rs2 =>
        have h' : r :: (r2 :: rs2).dropLast = x :: xs := h
        obtain ⟨h1, _⟩ := List.cons.inj h'
        rw [← h1]; exact head_splitOnNl hr
    · rw [if_neg he, hr] at h
      obtain ⟨h1, _⟩ := List.cons.inj h
      rw [← h1]; exact head_splitOnNl hr

theorem splitlines_cons_ex {l : List Char} (h : l ≠ []) :
    ∃ xs, splitlines l = firstLine l :: xs := by
  rcases hs : splitlines l with _ | ⟨x, xs⟩
  · exact absurd (splitlines_eq_nil hs) h
  · exact ⟨xs, by rw [head_splitlines hs]⟩

theorem splitlines_of_getLast_ne {l : List Char} (h1 : l ≠ [])
    (h2 : l.getLast? ≠ some '\n') : splitlines l = splitOnNl l := by
  unfold splitlines
  rw [if_neg h1, if_neg h2]

/-! ### Facts about the cut computation and the two normalizers -/

theorem mem_of_contains_space {l : List Char} (h : l.contains ' ' = true) :
    ' ' ∈ l := by
  simpa using h

theorem take_no_nl {limit : Nat} {s : List Char} (h : '\n' ∉ s) :
    '\n' ∉ s.take limit :=
  fun hm => h (List.take_subset _ _ hm)

theorem enfCut_no_nl {limit : Nat} {s : List Char} (h : '\n' ∉ s) :
    '\n' ∉ enfCut limit s := by
  unfold enfCut
  by_cases hsp : (s.take limit).contains ' ' = true
  · rw [if_pos hsp]
    obtain ⟨t2, ht⟩ := beforeLastSpace_spec (mem_of_contains_space hsp)
    intro hm
    apply @take_no_nl limit s h
    rw [ht]
    exact List.mem_append_left _ hm
  · rw [if_neg hsp]
    exact take_no_nl h

theorem enfCut_length_le (limit : Nat) (s : List Char) :
    (enfCut limit s).length ≤ limit := by
  unfold enfCut
  by_cases hsp : (s.take limit).contains ' ' = true
  · rw [if_pos hsp]
    obtain ⟨t2, ht⟩ := beforeLastSpace_spec (mem_of_contains_space hsp)
    have h1 : (s.take limit).length ≤ limit := by
      rw [List.length_take]; exact Nat.min_le_left _ _
    have h2 := congrArg List.length ht
    simp only [List.length_append, List.length_cons] at h2
    omega
  · rw [if_neg hsp, List.length_take]
    exact Nat.min_le_left _ _

theorem enfCut_space_bound {limit : Nat} {s : List Char}
    (hsp : (s.take limit).contains ' ' = true) :
    ∃ t2, s.take limit = enfCut limit s ++ ' ' :: t2 ∧
      (enfCut limit s).length + 1 ≤ limit := by
  obtain ⟨t2, ht⟩ := beforeLastSpace_spec (mem_of_contains_space hsp)
  have he : enfCut limit s = beforeLastSpace (s.take limit) := by
    unfold enfCut; rw [if_pos hsp]
  refine ⟨t2, by rw [he]; exact ht, ?_⟩
  have h1 : (s.take limit).length ≤ limit := by
    rw [List.length_take]; exact Nat.min_le_left _ _
  have h2 := congrArg List.length ht
  simp only [List.length_append, List.length_cons] at h2
  rw [he]
  omega

theorem enfCut_space_split {limit : Nat} {s : List Char}
    (hsp : (s.take limit).contains ' ' = true) :
    ∃ t3, s = enfCut limit s ++ ' ' :: t3 := by
  obtain ⟨t2, ht, _⟩ := enfCut_space_bound hsp
  refine ⟨t2 ++ s.drop limit, ?_⟩
  calc s = s.take limit ++ s.drop limit := (List.take_append_drop limit s).symm
    _ = (enfCut limit s ++ ' ' :: t2) ++ s.drop limit := by rw [← ht]
    _ = enfCut limit s ++ ' ' :: (t2 ++ s.drop limit) := by simp

theorem enfCut_head {limit : Nat} {c : Char} {t : List Char} (hc : ¬ c = ' ')
    (hlim : 0 < limit) : ∃ t3, enfCut limit (c :: t) = c :: t3 := by
  obtain ⟨m, rfl⟩ : ∃ m, limit = m + 1 := ⟨limit - 1, by omega⟩
  have htake : (c :: t).take (m + 1) = c :: t.take m := rfl
  unfold enfCut
  by_cases hsp : ((c :: t).take (m + 1)).contains ' ' = true
  · rw [if_pos hsp]
    obtain ⟨t2, ht⟩ := beforeLastSpace_spec (mem_of_contains_space hsp)
    rcases hb : beforeLastSpace ((c :: t).take (m + 1)) with _ | ⟨b, bs⟩
    · rw [hb] at ht
      rw [htake] at ht
      have ht' : c :: t.take m = ' ' :: t2 := by simpa using ht
      obtain ⟨hbc, _⟩ := List.cons.inj ht'
      exact absurd hbc hc
    · rw [hb] at ht
      rw [htake] at ht
      have ht' : c :: t.take m = b :: (bs ++ ' ' :: t2) := ht
      obtain ⟨hbc, _⟩ := List.cons.inj ht'
      exact ⟨bs, by rw [← hbc]⟩
  · rw [if_neg hsp, htake]
    exact ⟨t.take m, rfl⟩

theorem firstLine_joinLines {x : List Char} {L : List (List Char)}
    (hx : '\n' ∉ x) : firstLine (joinLines (x :: L)) = x := by
  cases L with
  | nil => exact firstLine_of_no_nl hx
  | cons y ys =>
    have hj : joinLines (x :: y :: ys) = x ++ '\n' :: joinLines (y :: ys) := rfl
    rw [hj]
    exact firstLine_append_nl _ hx

theorem enforce_fits {limit : Nat} {msg : List Char}
    (h : (firstLine (pyStrip msg)).length ≤ limit) :
    enforce_summary_limit limit msg = msg := by
  by_cases ht : pyStrip msg = []
  · unfold enforce_summary_limit
    rw [ht]
    rfl
  · obtain ⟨rest, hrest⟩ := splitlines_cons_ex ht
    have hx : enforce_summary_limit limit msg =
        if (firstLine (pyStrip msg)).length ≤ limit then msg
        else joinLines (enfCut limit (firstLine (pyStrip msg)) :: rest) := by
      unfold enforce_summary_limit
      rw [hrest]
    rw [hx, if_pos h]

theorem enforce_long {limit : Nat} {msg : List Char}
    (h : limit < (firstLine (pyStrip msg)).length) :
    ∃ rest, splitlines (pyStrip msg) = firstLine (pyStrip msg) :: rest ∧
      enforce_summary_limit limit msg =
        joinLines (enfCut limit (firstLine (pyStrip msg)) :: rest) := by
  have ht : pyStrip msg ≠ [] := by
    intro he
    rw [he] at h
    simp [firstLine] at h
  obtain ⟨rest, hrest⟩ := splitlines_cons_ex ht
  refine ⟨rest, hrest, ?_⟩
  have hx : enforce_summary_limit limit msg =
      if (firstLine (pyStrip msg)).length ≤ limit then msg
      else joinLines (enfCut limit (firstLine (pyStrip msg)) :: rest) := by
    unfold enforce_summary_limit
    rw [hrest]
  rw [hx, if_neg (by omega)]

theorem truncate_fits {limit : Nat} {s : List Char}
    (h : (pyStrip s).length ≤ limit) : truncate_summary limit s = pyStrip s := by
  unfold truncate_summary
  rw [if_pos h]

theorem truncate_long {limit : Nat} {s : List Char}
    (h : limit < (pyStrip s).length) :
    truncate_summary limit s = enfCut limit (pyStrip s) ++ ['…'] := by
  unfold truncate_summary
  rw [if_neg (by omega)]

/-! ### Claim C2 -/

/-- Claim C2, counterexample: `truncate_summary` at limit 80 applied to a
single 81-character word returns an 81-character first line (the
80-character cut plus the appended ellipsis), exceeding the configured
limit, so the normalizer does not always return a first line of length at
most the limit. -/
theorem claim_C2_counterexample :
    80 < (firstLine (truncate_summary 80 (List.replicate 81 'a'))).length := by
  decide

/-- Claim C2 (amended): relative to the *stripped* input.
`enforce_summary_limit`: when the stripped message's first line fits the
limit, the message is returned unchanged; when it exceeds the limit, the
result's first line has length at most the limit, and if a space occurs in
the first `limit` characters the returned first line ends exactly at a space
boundary of the original line (never inside a word).  `truncate_summary`:
the result (its ellipsis included) has length at most `limit + 1`; when a
space occurs in the first `limit` characters of an over-long input, the
result stays within the limit and its cut also ends at a space boundary. -/
theorem claim_C2_first_line_bounds (limit : Nat) (msg : List Char) :
    ((firstLine (pyStrip msg)).length ≤ limit →
      enforce_summary_limit limit msg = msg)
    ∧ (limit < (firstLine (pyStrip msg)).length →
        (firstLine (enforce_summary_limit limit msg)).length ≤ limit
        ∧ (((firstLine (pyStrip msg)).take limit).contains ' ' = true →
            ∃ t, firstLine (pyStrip msg) =
              firstLine (enforce_summary_limit limit msg) ++ ' ' :: t))
    ∧ ((truncate_summary limit msg).length ≤ limit + 1)
    ∧ (limit < (pyStrip msg).length →
        ((pyStrip msg).take limit).contains ' ' = true →
        (truncate_summary limit msg).length ≤ limit
        ∧ ∃ t, pyStrip msg = (truncate_summary limit msg).dropLast ++ ' ' :: t) := by
  refine ⟨fun h => enforce_fits h, fun h => ?_, ?_, fun h hsp => ?_⟩
  · obtain ⟨rest, hrest, heq⟩ := enforce_long h
    have hs_nl : '\n' ∉ firstLine (pyStrip msg) := firstLine_no_nl _
    have hcut_nl : '\n' ∉ enfCut limit (firstLine (pyStrip msg)) :=
      enfCut_no_nl hs_nl
    have hfl : firstLine (enforce_summary_limit limit msg) =
        enfCut limit (firstLine (pyStrip msg)) := by
      rw [heq]
      exact firstLine_joinLines hcut_nl
    refine ⟨by rw [hfl]; exact enfCut_length_le _ _, fun hsp => ?_⟩
    obtain ⟨t3, ht3⟩ := enfCut_space_split hsp
    exact ⟨t3, by rw [hfl]; exact ht3⟩
  · by_cases h : (pyStrip msg).length ≤ limit
    · rw [truncate_fits h]; omega
    · rw [truncate_long (by omega), List.length_append]
      have := enfCut_length_le limit (pyStrip msg)
      simp only [List.length_cons, List.length_nil]
      omega
  · rw [truncate_long h]
    obtain ⟨t2, _, hb⟩ := enfCut_space_bound hsp
    refine ⟨by rw [List.length_append]; simp only [List.length_cons,
      List.length_nil]; omega, ?_⟩
    obtain ⟨t3, ht3⟩ := enfCut_space_split hsp
    refine ⟨t3, ?_⟩
    rw [List.dropLast_concat]
    exact ht3

/-- Witness for C2 at a concrete over-long spaceless line and a concrete
line with a space boundary. -/
theorem claim_C2_first_line_bounds_witness :
    (firstLine (enforce_summary_limit 72 (List.replicate 80 'a'))).length ≤ 72
    ∧ (truncate_summary 80 (List.replicate 81 'a')).length ≤ 80 + 1 :=
  ⟨((claim_C2_first_line_bounds 72 (List.replicate 80 'a')).2.1
      (by decide)).1,
    (claim_C2_first_line_bounds 80 (List.replicate 81 'a')).2.2.1⟩

/-! ### Idempotence machinery -/

theorem pyStrip_idem (l : List Char) : pyStrip (pyStrip l) = pyStrip l := by
  by_cases h : pyStrip l = []
  · rw [h]; rfl
  · apply pyStrip_eq_self
    · intro c t hc
      exact pyStrip_head hc
    · intro c hc
      obtain ⟨c', hc', hs⟩ := pyStrip_getLast h
      rw [hc] at hc'
      injection hc' with hcc
      rw [hcc]
      exact hs

theorem takeWhile_take_eq (p : Char → Bool) :
    ∀ (l : List Char) (k : Nat), (l.take k).takeWhile p = (l.takeWhile p).take k := by
  intro l
  induction l with
  | nil => intro k; simp
  | cons c t ih =>
    intro k
    cases k with
    | zero => simp
    | succ m =>
      by_cases hp : p c
      · simp [List.take_succ_cons, List.takeWhile_cons, hp, ih m]
      · simp [List.take_succ_cons, List.takeWhile_cons, hp]

theorem firstLine_take_le (l : List Char) (k : Nat) :
    (firstLine (l.take k)).length ≤ (firstLine l).length := by
  unfold firstLine
  rw [takeWhile_take_eq, List.length_take]
  exact Nat.min_le_right _ _

theorem joinLines_cons_head (c : Char) (t : List Char) (L : List (List Char)) :
    ∃ u, joinLines ((c :: t) :: L) = c :: u := by
  cases L with
  | nil => exact ⟨t, rfl⟩
  | cons y ys => exact ⟨t ++ '\n' :: joinLines (y :: ys), rfl⟩

theorem pyStrip_ne_nil_head {msg : List Char} (h : pyStrip msg ≠ []) :
    ∃ c tl, pyStrip msg = c :: tl ∧ pyIsSpace c = false := by
  rcases hc : pyStrip msg with _ | ⟨c, tl⟩
  · exact absurd hc h
  · exact ⟨c, tl, rfl, pyStrip_head hc⟩

theorem dropTrailing_as_take (m : List Char) :
    dropTrailing m = m.take (dropTrailing m).length := by
  obtain ⟨u, _, hm⟩ := dropTrailing_spec m
  have h2 : (dropTrailing m ++ u).take (dropTrailing m).length = dropTrailing m :=
    List.take_left' rfl
  rw [← hm] at h2
  exact h2.symm

theorem enfCut_of_contains_false {limit : Nat} {s : List Char}
    (h : (s.take limit).contains ' ' = false) : enfCut limit s = s.take limit := by
  unfold enfCut
  rw [h]
  simp

theorem enforce_result_fits {limit : Nat} (hlim : 0 < limit) {msg : List Char}
    (h : limit < (firstLine (pyStrip msg)).length) :
    (firstLine (pyStrip (enforce_summary_limit limit msg))).length ≤ limit := by
  obtain ⟨rest, hrest, heq⟩ := enforce_long h
  have hTne : pyStrip msg ≠ [] := by
    intro he
    rw [he] at h
    simp [firstLine] at h
  obtain ⟨c, tl, hc, hcs⟩ := pyStrip_ne_nil_head hTne
  have hcnl : ¬ c = '\n' := by
    intro hce
    rw [hce] at hcs
    simp [pyIsSpace] at hcs
  have hcsp : ¬ c = ' ' := by
    intro hce
    rw [hce] at hcs
    simp [pyIsSpace] at hcs
  have hs_cons : firstLine (pyStrip msg) = c :: tl.takeWhile (fun x => x ≠ '\n') := by
    rw [hc]
    simp [firstLine, List.takeWhile_cons, hcnl]
  obtain ⟨t3, hcut⟩ := enfCut_head (t := tl.takeWhile (fun x => x ≠ '\n'))
    hcsp hlim
  rw [← hs_cons] at hcut
  obtain ⟨u, hR⟩ := joinLines_cons_head c t3 rest
  rw [heq, hcut, hR]
  have hdl : dropLeading (c :: u) = c :: u :=
    dropWhile_eq_self_of_head (fun c' t' he => by
      obtain ⟨h1, _⟩ := List.cons.inj he
      rw [← h1]; exact hcs)
  have hps : pyStrip (c :: u) = (c :: u).take (dropTrailing (c :: u)).length := by
    unfold pyStrip
    rw [hdl]
    exact dropTrailing_as_take _
  rw [hps]
  calc (firstLine ((c :: u).take (dropTrailing (c :: u)).length)).length
      ≤ (firstLine (c :: u)).length := firstLine_take_le _ _
    _ = (enfCut limit (firstLine (pyStrip msg))).length := by
        rw [← hR, ← hcut, firstLine_joinLines (enfCut_no_nl (firstLine_no_nl _))]
    _ ≤ limit := enfCut_length_le _ _

theorem enforce_idem {limit : Nat} (hlim : 0 < limit) (msg : List Char) :
    enforce_summary_limit limit (enforce_summary_limit limit msg) =
      enforce_summary_limit limit msg := by
  by_cases h : (firstLine (pyStrip msg)).length ≤ limit
  · rw [enforce_fits h]
    exact enforce_fits h
  · exact enforce_fits (enforce_result_fits hlim (by omega))

theorem truncate_idem {limit : Nat} (hlim : 0 < limit) (msg : List Char) :
    truncate_summary limit (truncate_summary limit msg) =
      truncate_summary limit msg := by
  by_cases h : (pyStrip msg).length ≤ limit
  · rw [truncate_fits h]
    have h2 : (pyStrip (pyStrip msg)).length ≤ limit := by
      rw [pyStrip_idem]; exact h
    rw [truncate_fits h2, pyStrip_idem]
  · have h' : limit < (pyStrip msg).length := by omega
    rw [truncate_long h']
    have hTne : pyStrip msg ≠ [] := by
      intro he
      rw [he] at h'
      simp at h'
    obtain ⟨c, tl, hc, hcs⟩ := pyStrip_ne_nil_head hTne
    have hcsp : ¬ c = ' ' := by
      intro hce
      rw [hce] at hcs
      simp [pyIsSpace] at hcs
    obtain ⟨t3, hcut⟩ := enfCut_head (t := tl) hcsp hlim
    rw [← hc] at hcut
    have hR : enfCut limit (pyStrip msg) ++ ['…'] = c :: (t3 ++ ['…']) := by
      rw [hcut]; rfl
    have hstrip : pyStrip (enfCut limit (pyStrip msg) ++ ['…']) =
        enfCut limit (pyStrip msg) ++ ['…'] := by
      apply pyStrip_eq_self
      · intro c' t' he
        rw [hR] at he
        obtain ⟨h1, _⟩ := List.cons.inj he
        rw [← h1]; exact hcs
      · intro c' hce
        rw [List.getLast?_concat] at hce
        injection hce with hcc
        rw [← hcc]
        decide
    by_cases hlen : (enfCut limit (pyStrip msg) ++ ['…']).length ≤ limit
    · have h2 : (pyStrip (enfCut limit (pyStrip msg) ++ ['…'])).length ≤ limit := by
        rw [hstrip]; exact hlen
      rw [truncate_fits h2, hstrip]
    · have hcl := enfCut_length_le limit (pyStrip msg)
      have hRlen : (enfCut limit (pyStrip msg) ++ ['…']).length =
          (enfCut limit (pyStrip msg)).length + 1 := by
        simp
      have hcl_eq : (enfCut limit (pyStrip msg)).length = limit := by omega
      have hnospace : ¬ (((pyStrip msg).take limit).contains ' ' = true) := by
        intro hsp
        obtain ⟨_, _, hb⟩ := enfCut_space_bound hsp
        omega
      have hcuteq : enfCut limit (pyStrip msg) = (pyStrip msg).take limit := by
        unfold enfCut
        rw [if_neg hnospace]
      have htake : (enfCut limit (pyStrip msg) ++ ['…']).take limit =
          enfCut limit (pyStrip msg) := List.take_left' hcl_eq
      have hfalse : ((enfCut limit (pyStrip msg) ++ ['…']).take limit).contains ' '
          = false := by
        rw [htake, hcuteq]
        simpa using hnospace
      have h2 : limit < (pyStrip (enfCut limit (pyStrip msg) ++ ['…'])).length := by
        rw [hstrip]
        omega
      rw [truncate_long h2]
      have h3 : enfCut limit (pyStrip (enfCut limit (pyStrip msg) ++ ['…'])) =
          enfCut limit (pyStrip msg) := by
        rw [hstrip, enfCut_of_contains_false hfalse]
        exact htake
      rw [h3]

/-! ### Claim C3 -/

/-- Claim C3, counterexample: an input whose first line fits the limit is
nevertheless changed by the normalizer, because the normalizer strips
surrounding whitespace before checking (here `truncate_summary` returns the
stripped text). -/
theorem claim_C3_counterexample :
    (firstLine ([' ', 'a'] : List Char)).length ≤ 80 ∧
      truncate_summary 80 [' ', 'a'] ≠ [' ', 'a'] := by
  decide

/-- Claim C3 (amended): the unchanged-return guarantee holds relative to the
stripped input: `enforce_summary_limit` returns the input unchanged whenever
the *stripped* input's first line fits the limit (an input whose own first
line fits may still be altered once stripping exposes a longer first line or
removes surrounding whitespace).  Idempotence itself holds for both
normalizers at any positive limit: applying the normalizer twice yields
exactly the result of applying it once. -/
theorem claim_C3_normalizer_idempotent (limit : Nat) (hlim : 0 < limit)
    (msg : List Char) :
    ((firstLine (pyStrip msg)).length ≤ limit →
      enforce_summary_limit limit msg = msg)
    ∧ enforce_summary_limit limit (enforce_summary_limit limit msg) =
        enforce_summary_limit limit msg
    ∧ truncate_summary limit (truncate_summary limit msg) =
        truncate_summary limit msg :=
  ⟨fun h => enforce_fits h, enforce_idem hlim msg, truncate_idem hlim msg⟩

/-- Witness for C3 at limit 72 on a concrete message. -/
theorem claim_C3_normalizer_idempotent_witness :
    enforce_summary_limit 72 (enforce_summary_limit 72 ("hello world".data)) =
      enforce_summary_limit 72 ("hello world".data) :=
  (claim_C3_normalizer_idempotent 72 (by decide) ("hello world".data)).2.1

/-! ### Decimal rendering: correctness and injectivity -/

theorem natStrAux_eq_digits :
    ∀ (fuel n : Nat), n ≤ fuel →
      natStrAux fuel n = ((Nat.digits 10 n).map Nat.digitChar).reverse := by
  intro fuel
  induction fuel with
  | zero =>
    intro n hn
    interval_cases n
    simp [natStrAux]
  | succ f ih =>
    intro n hn
    cases n with
    | zero => simp [natStrAux]
    | succ m =>
      have hdiv : (m + 1) / 10 ≤ f := by
        have := Nat.div_lt_self (Nat.succ_pos m) (by omega : 1 < 10)
        omega
      have hrec : natStrAux (f + 1) (m + 1) =
          natStrAux f ((m + 1) / 10) ++ [Nat.digitChar ((m + 1) % 10)] := rfl
      rw [hrec, ih _ hdiv,
        Nat.digits_def' (by omega : 1 < 10) (Nat.succ_pos m)]
      simp

theorem natStr_eq (n : Nat) :
    natStr n = if n = 0 then ['0']
    else ((Nat.digits 10 n).map Nat.digitChar).reverse := by
  unfold natStr
  by_cases h : n = 0
  · rw [if_pos h, if_pos h]
  · rw [if_neg h, if_neg h, natStrAux_eq_digits n n le_rfl]

theorem digitChar_inj_lt :
    ∀ a < 10, ∀ b < 10, Nat.digitChar a = Nat.digitChar b → a = b := by
  decide

theorem map_digitChar_inj :
    ∀ (L1 L2 : List Nat), (∀ d ∈ L1, d < 10) → (∀ d ∈ L2, d < 10) →
      L1.map Nat.digitChar = L2.map Nat.digitChar → L1 = L2 := by
  intro L1
  induction L1 with
  | nil =>
    intro L2 _ _ h
    cases L2 with
    | nil => rfl
    | cons b u => simp at h
  | cons a t ih =>
    intro L2 h1 h2 h
    cases L2 with
    | nil => simp at h
    | cons b u =>
      rw [List.map_cons, List.map_cons] at h
      obtain ⟨hab, htu⟩ := List.cons.inj h
      have hae : a = b := digitChar_inj_lt a (h1 a (List.mem_cons_self a t))
        b (h2 b (List.mem_cons_self b u)) hab
      rw [hae, ih u (fun d hd => h1 d (List.mem_cons_of_mem a hd))
        (fun d hd => h2 d (List.mem_cons_of_mem b hd)) htu]

theorem digits_render_ne_zero {n : Nat} (hn : n ≠ 0) :
    ((Nat.digits 10 n).map Nat.digitChar).reverse ≠ ['0'] := by
  intro h
  have h2 : (Nat.digits 10 n).map Nat.digitChar = ['0'] := by
    have := congrArg List.reverse h
    simpa using this
  rcases hd : Nat.digits 10 n with _ | ⟨d, ds⟩
  · rw [hd] at h2; simp at h2
  · rw [hd] at h2
    cases ds with
    | nil =>
      simp only [List.map_cons, List.map_nil] at h2
      obtain ⟨hd0, _⟩ := List.cons.inj h2
      have hdlt : d < 10 :=
        Nat.digits_lt_base (by omega) (hd ▸ List.mem_cons_self d [])
      have : d = 0 := digitChar_inj_lt d hdlt 0 (by omega) hd0
      have hofs := Nat.ofDigits_digits 10 n
      rw [hd, this] at hofs
      simp [Nat.ofDigits] at hofs
      exact hn hofs.symm
    | cons d2 ds2 => simp at h2

theorem natStr_inj : ∀ {m n : Nat}, natStr m = natStr n → m = n := by
  intro m n h
  rw [natStr_eq, natStr_eq] at h
  by_cases hm : m = 0 <;> by_cases hn : n = 0
  · rw [hm, hn]
  · rw [if_pos hm, if_neg hn] at h
    exact absurd h.symm (digits_render_ne_zero hn)
  · rw [if_neg hm, if_pos hn] at h
    exact absurd h (digits_render_ne_zero hm)
  · rw [if_neg hm, if_neg hn] at h
    have h2 : (Nat.digits 10 m).map Nat.digitChar =
        (Nat.digits 10 n).map Nat.digitChar := by
      have := congrArg List.reverse h
      simpa using this
    have h3 : Nat.digits 10 m = Nat.digits 10 n :=
      map_digitChar_inj _ _
        (fun d hd => Nat.digits_lt_base (by omega) hd)
        (fun d hd => Nat.digits_lt_base (by omega) hd) h2
    have h4 := Nat.ofDigits_digits 10 m
    rw [h3, Nat.ofDigits_digits] at h4
    exact h4.symm

theorem mkTag_inj_k {M m k1 k2 : Nat} (h : mkTag M m k1 = mkTag M m k2) :
    k1 = k2 := by
  unfold mkTag at h
  have h1 := (List.cons.inj h).2
  have h2 := List.append_cancel_left h1
  have h3 := (List.cons.inj h2).2
  have h4 := List.append_cancel_left h3
  have h5 := (List.cons.inj h4).2
  exact natStr_inj h5

/-! ### Termination of the tag search -/

theorem exists_unused_tag (used : Finset (List Char)) (M m p : Nat) :
    ∃ j, p < j ∧ j ≤ p + used.card + 1 ∧ mkTag M m j ∉ used := by
  by_contra hcon
  push_neg at hcon
  have hmaps : ∀ j ∈ Finset.Icc (p + 1) (p + used.card + 1),
      (fun j => mkTag M m j) j ∈ used := by
    intro j hj
    rw [Finset.mem_Icc] at hj
    exact hcon j (by omega) (by omega)
  have hinj : Set.InjOn (fun j => mkTag M m j)
      (Finset.Icc (p + 1) (p + used.card + 1)) :=
    fun a _ b _ hab => mkTag_inj_k hab
  have hcard := Finset.card_le_card_of_injOn _ hmaps hinj
  rw [Nat.card_Icc] at hcard
  omega

theorem nextFreeFuel_spec (used : Finset (List Char)) (M m : Nat) :
    ∀ (fuel p : Nat), (∃ j, p < j ∧ j ≤ p + fuel ∧ mkTag M m j ∉ used) →
      ∃ k, nextFreeFuel used M m p fuel = some (mkTag M m k) ∧ p < k ∧
        mkTag M m k ∉ used ∧ ∀ j, p < j → j < k → mkTag M m j ∈ used := by
  intro fuel
  induction fuel with
  | zero =>
    intro p hex
    obtain ⟨j, hj1, hj2, _⟩ := hex
    omega
  | succ f ih =>
    intro p hex
    obtain ⟨j, hj1, hj2, hj3⟩ := hex
    by_cases hmem : mkTag M m (p + 1) ∈ used
    · have hstep : nextFreeFuel used M m p (f + 1) =
          nextFreeFuel used M m (p + 1) f := by
        simp [nextFreeFuel, hmem]
      have hjne : j ≠ p + 1 := fun he => hj3 (he ▸ hmem)
      obtain ⟨k, hk1, hk2, hk3, hk4⟩ :=
        ih (p + 1) ⟨j, by omega, by omega, hj3⟩
      refine ⟨k, by rw [hstep]; exact hk1, by omega, hk3, ?_⟩
      intro j' h1' h2'
      by_cases hj' : j' = p + 1
      · exact hj' ▸ hmem
      · exact hk4 j' (by omega) h2'
    · refine ⟨p + 1, by simp [nextFreeFuel, hmem], by omega, hmem, ?_⟩
      intro j' h1' h2'
      exact absurd h2' (by omega)

/-! ### Claims C1 and C10 -/

/-- Claim C1: `next_free_version` returns `v{major}.{minor}.{k}` for the
least `k > patch` whose tag is not among the existing tags; in particular
the major and minor components of the result are those of the input (the
search never rolls over into minor or major). -/
theorem claim_C1_next_free_version_least (used : Finset (List Char))
    (major minor patch : Nat) :
    ∃ k, next_free_version used major minor patch = mkTag major minor k ∧
      patch < k ∧ mkTag major minor k ∉ used ∧
      ∀ j, patch < j → j < k → mkTag major minor j ∈ used := by
  obtain ⟨j, hj1, hj2, hj3⟩ := exists_unused_tag used major minor patch
  obtain ⟨k, hk1, hk2, hk3, hk4⟩ :=
    nextFreeFuel_spec used major minor (used.card + 1) patch
      ⟨j, hj1, by omega, hj3⟩
  refine ⟨k, ?_, hk2, hk3, hk4⟩
  unfold next_free_version
  rw [hk1]
  rfl

/-- Claim C10: the patch-increment loop of `next_free_version` terminates:
within `used.card + 1` iterations (the candidate patch number increasing by
one each time) the search reaches a tag outside the finite existing set and
returns it. -/
theorem claim_C10_negotiator_terminates (used : Finset (List Char))
    (major minor patch : Nat) :
    (nextFreeFuel used major minor patch (used.card + 1)).isSome := by
  obtain ⟨j, hj1, hj2, hj3⟩ := exists_unused_tag used major minor patch
  obtain ⟨k, hk1, _⟩ :=
    nextFreeFuel_spec used major minor (used.card + 1) patch
      ⟨j, hj1, by omega, hj3⟩
  rw [hk1]
  rfl

example :
    next_free_version {("v1.2.3".data), ("v1.2.4".data)} 1 2 3 =
      ("v1.2.5".data) := by
  decide

/-! ### Claim C4 -/

/-- Claim C4: the AI refinement operation absorbs every subprocess outcome.
`generate_message` (`gup/__main__.py`) is the `try` body plus its
`except Exception` handler, so it is total: for every behaviour it either
returns accepted output (the stripped, first-line-normalized text with no
failure reason) or the prior draft together with a failure reason.
`generate_ai_commit_message` (`gup.py`) likewise either accepts the stripped
output or returns nothing, on which its caller keeps the prior draft. -/
theorem claim_C4_ai_never_raises (draft : List Char) (b : SubprocBehavior) :
    ((∃ out err, b = .completes out err ∧ pyStrip out ≠ [] ∧
        generate_message draft b =
          (enforce_summary_limit 72 (pyStrip out), none))
      ∨ ((generate_message draft b).1 = draft ∧
          (generate_message draft b).2.isSome))
    ∧ ((∃ out err, b = .completes out err ∧
          generate_ai_commit_message b = some (pyStrip out))
      ∨ generate_ai_commit_message b = none) := by
  constructor
  · cases b with
    | launchFailure e => exact Or.inr ⟨rfl, rfl⟩
    | timeout => exact Or.inr ⟨rfl, rfl⟩
    | completes out err =>
      by_cases h : pyStrip out ≠ []
      · exact Or.inl ⟨out, err, rfl, h,
          by simp [generate_message, generate_message_body, h]⟩
      · refine Or.inr ⟨?_, ?_⟩ <;>
          simp [generate_message, generate_message_body, h]
  · cases b with
    | launchFailure e => exact Or.inr rfl
    | timeout => exact Or.inr rfl
    | completes out err =>
      by_cases h1 : out = [] ∨ (pyStrip out).length < 10
      · exact Or.inr (by simp [generate_ai_commit_message, h1])
      · by_cases h2 : refusalDetected out = true
        · exact Or.inr (by simp [generate_ai_commit_message, h1, h2])
        · exact Or.inl ⟨out, err, rfl,
            by simp [generate_ai_commit_message, h1, h2]⟩

/-! ### Claim C5 -/

/-- Claim C5, counterexample: a trimmed response of 5 characters is accepted
by `generate_message` in `gup/__main__.py` — it becomes the new draft with
no failure reason, because that variant only checks for *empty* trimmed
output and has no 10-character minimum. -/
theorem claim_C5_counterexample :
    (pyStrip ("short".data)).length < 10 ∧
      generate_message ("Update project configuration".data)
          (.completes ("short".data) []) = (("short".data), none) := by
  decide

/-- Claim C5 (amended): the 10-character minimum exists only in `gup.py`:
its `generate_ai_commit_message` rejects any completed response whose
trimmed text is shorter than 10 characters (returning nothing, so its
caller keeps the prior draft), whereas the `gup/__main__.py` variant
accepts any nonempty trimmed output regardless of length. -/
theorem claim_C5_short_output_rejected (out err : List Char)
    (h : (pyStrip out).length < 10) :
    generate_ai_commit_message (.completes out err) = none := by
  show (if out = [] ∨ (pyStrip out).length < 10 then none
    else if refusalDetected out = true then none
    else some (pyStrip out)) = none
  rw [if_pos (Or.inr h)]

/-- Witness for C5 on a concrete 5-character response. -/
theorem claim_C5_short_output_rejected_witness :
    generate_ai_commit_message (.completes ("short".data) []) = none :=
  claim_C5_short_output_rejected ("short".data) [] (by decide)

/-! ### Claim C7 -/

theorem gitConfigMerged_eq_nil {a b : List Char}
    (h : gitConfigMerged a b = []) : a = [] ∧ b = [] := by
  unfold gitConfigMerged at h
  by_cases ha : a ≠ []
  · rw [if_pos ha] at h
    exact absurd h ha
  · rw [if_neg ha] at h
    push_neg at ha
    exact ⟨ha, h⟩

/-- Claim C7, counterexample: with repo-scoped name and email both unset and
a global name set, the resolver returns the global value with provenance
`repo`, because its first query is the *unscoped* `git config user.name`,
which already falls back to global scope.  The claim demands provenance
`globalScope` here. -/
theorem claim_C7_counterexample :
    read_identity [] [] ("bob".data) [] =
      (("bob".data), [], Provenance.repo)
    ∧ Provenance.repo ≠ Provenance.globalScope := by
  decide

/-- Claim C7 (amended): the resolver's first layer is the *unscoped* config
read, which merges repo and global scope (repo-else-global per field).
If either merged field is non-empty, the merged values are returned with
provenance `repo` — even when they were sourced from global scope, and even
when only one field is set (a half-set repo identity is silently completed
from global scope).  The `globalScope` branch is unreachable: both merged
fields empty forces all four scope values empty, so the resolver then
returns empty strings with provenance `noneFound`. -/
theorem claim_C7_identity_resolution (ln le gn ge : List Char) :
    ((ln ≠ [] ∨ le ≠ []) →
      read_identity ln le gn ge =
        (gitConfigMerged ln gn, gitConfigMerged le ge, Provenance.repo))
    ∧ (ln = [] → le = [] → (gn ≠ [] ∨ ge ≠ []) →
        read_identity ln le gn ge = (gn, ge, Provenance.repo))
    ∧ (ln = [] → le = [] → gn = [] → ge = [] →
        read_identity ln le gn ge = ([], [], Provenance.noneFound))
    ∧ (read_identity ln le gn ge).2.2 ≠ Provenance.globalScope := by
  refine ⟨fun h => ?_, fun h1 h2 h3 => ?_, fun h1 h2 h3 h4 => ?_, ?_⟩
  · unfold read_identity
    rw [if_pos ?_]
    rcases h with h | h
    · exact Or.inl (by unfold gitConfigMerged; rw [if_pos h]; exact h)
    · exact Or.inr (by unfold gitConfigMerged; rw [if_pos h]; exact h)
  · subst h1
    subst h2
    unfold read_identity
    have hn : gitConfigMerged [] gn = gn := by
      unfold gitConfigMerged
      simp
    have he : gitConfigMerged [] ge = ge := by
      unfold gitConfigMerged
      simp
    rw [hn, he, if_pos h3]
  · subst h1; subst h2; subst h3; subst h4
    decide
  · unfold read_identity
    by_cases h : gitConfigMerged ln gn ≠ [] ∨ gitConfigMerged le ge ≠ []
    · rw [if_pos h]
      show Provenance.repo ≠ Provenance.globalScope
      decide
    · rw [if_neg h]
      push_neg at h
      obtain ⟨hgn, hge⟩ := gitConfigMerged_eq_nil h.1
      obtain ⟨_, hge2⟩ := gitConfigMerged_eq_nil h.2
      rw [if_neg (by simp [hgn, hge, hge2])]
      show Provenance.noneFound ≠ Provenance.globalScope
      decide

/-- Witness for C7: a half-set repo identity completed from global scope, a
global-only state reported as `repo`, and the all-empty state. -/
theorem claim_C7_identity_resolution_witness :
    read_identity ("alice".data) [] ("bob".data) ("b@x".data) =
      (("alice".data), ("b@x".data), Provenance.repo)
    ∧ read_identity [] [] ("bob".data) [] =
      (("bob".data), [], Provenance.repo)
    ∧ read_identity [] [] [] [] = ([], [], Provenance.noneFound) := by
  refine ⟨?_, ?_, ?_⟩
  · rw [(claim_C7_identity_resolution ("alice".data) [] ("bob".data)
      ("b@x".data)).1 (Or.inl (by decide))]
    decide
  · exact (claim_C7_identity_resolution [] [] ("bob".data) []).2.1
      rfl rfl (Or.inl (by decide))
  · exact (claim_C7_identity_resolution [] [] [] []).2.2.1 rfl rfl rfl rfl

/-! ### Claim C8 -/

/-- Claim C8: the change-summary heuristic: "Initial commit" on the very
first commit regardless of file count; "Update project configuration" for
exactly one staged file; otherwise "Update N project files" with N the
staged file count. -/
theorem claim_C8_summary_heuristic (bootstrap : Bool)
    (files : List (List Char)) :
    (bootstrap = true → commit_msg bootstrap files = ("Initial commit".data))
    ∧ (bootstrap = false → files.length = 1 →
        commit_msg bootstrap files = ("Update project configuration".data))
    ∧ (bootstrap = false → files.length ≠ 1 →
        commit_msg bootstrap files =
          ("Update ".data) ++ natStr files.length ++ (" project files".data)) := by
  refine ⟨fun h => ?_, fun h h1 => ?_, fun h h1 => ?_⟩
  · subst h; rfl
  · subst h; simp [commit_msg, h1]
  · subst h; simp [commit_msg, h1]

/-- Witness for C8: the three heuristic cases at concrete staged lists,
including the rendered count for five files. -/
theorem claim_C8_summary_heuristic_witness :
    commit_msg true [] = ("Initial commit".data)
    ∧ commit_msg false [("a.txt".data)] = ("Update project configuration".data)
    ∧ commit_msg false
        [("a".data), ("b".data), ("c".data), ("d".data), ("e".data)] =
      ("Update 5 project files".data) := by
  refine ⟨(claim_C8_summary_heuristic true []).1 rfl,
    (claim_C8_summary_heuristic false [("a.txt".data)]).2.1 rfl (by decide), ?_⟩
  rw [(claim_C8_summary_heuristic false _).2.2 rfl (by decide)]
  decide

/-! ### Claim C9 -/

/-- Claim C9, counterexample: on an empty staged set, `gup/__main__.py`
exits with code 0, not code 3. -/
theorem claim_C9_counterexample :
    no_staged_exit_main [] = some 0 ∧ no_staged_exit_main [] ≠ some 3 := by
  decide

/-- Claim C9 (amended): when the staged set is empty after staging, `gup.py`
exits with code 3, while `gup/__main__.py` exits with code 0 (the
nothing-to-do code); in both scripts this guard precedes every commit, tag
and push of the release, which is therefore not performed.  With a
non-empty staged set neither guard fires. -/
theorem claim_C9_no_staged_exit (out : List Char) :
    (out = [] →
      no_staged_exit_gup out = some 3 ∧ no_staged_exit_main out = some 0)
    ∧ (out ≠ [] →
      no_staged_exit_gup out = none ∧ no_staged_exit_main out = none) := by
  constructor
  · intro h
    subst h
    exact ⟨rfl, rfl⟩
  · intro h
    constructor
    · unfold no_staged_exit_gup
      rw [if_neg h]
    · unfold no_staged_exit_main
      rw [if_neg (fun he => h (splitlines_eq_nil he))]

/-- Witness for C9 on an empty and a singleton staged-file query output. -/
theorem claim_C9_no_staged_exit_witness :
    no_staged_exit_gup [] = some 3 ∧ no_staged_exit_main ['a'] = none :=
  ⟨((claim_C9_no_staged_exit []).1 rfl).1,
    ((claim_C9_no_staged_exit ['a']).2 (by decide)).2⟩

/-! ### Claim C6 -/

/-- The trailer shape the spec asserts: the message's last two lines are a
`Version:` line followed by a `Timestamp:` line. -/
def endsWithVersionTimestamp (m : List Char) : Prop :=
  ∃ tag ts, (splitlines m).getLast? = some (("Timestamp: ".data) ++ ts) ∧
    ((splitlines m).dropLast).getLast? = some (("Version: ".data) ++ tag)

/-- Claim C6, counterexample: the final message built by `gup.py` puts the
`Version:`/`Timestamp:` lines *first* (with the title merged into the
Version line) and the body last, so its last line is the body, not a
Timestamp line. -/
theorem claim_C6_counterexample :
    ¬ endsWithVersionTimestamp
      (final_msg_gup ("v1.2.4".data) ("t".data)
        ("2025-01-01 00:00:00".data) ("x".data)) := by
  intro hcon
  obtain ⟨tag, ts, h1, _⟩ := hcon
  have h2 : (splitlines (final_msg_gup ("v1.2.4".data) ("t".data)
      ("2025-01-01 00:00:00".data) ("x".data))).getLast? = some ['x'] := by
    decide
  rw [h2] at h1
  injection h1 with h3
  have h4 := congrArg List.length h3
  rw [List.length_append] at h4
  have h5 : (("Timestamp: ".data).length) = 11 := by decide
  rw [h5] at h4
  simp only [List.length_cons, List.length_nil] at h4
  omega

/-- Claim C6 (amended): only `gup/__main__.py` appends the trailer: its
final message always ends with a `Version: <tag>` line followed by a
`Timestamp: <ts>` line after the message body.  `gup.py` instead *prepends*
the trailer: its final message begins with a `Version: <tag> — <title>`
line and a `Timestamp: <ts>` line, with the body after them. -/
theorem claim_C6_trailer_position (cm tag title ts : List Char)
    (htag : '\n' ∉ tag) (htitle : '\n' ∉ title) (hts : '\n' ∉ ts) :
    (∃ pre, splitlines (final_msg_main cm tag ts) =
        pre ++ [("Version: ".data) ++ tag, ("Timestamp: ".data) ++ ts])
    ∧ (splitlines (final_msg_gup tag title ts cm)).take 2 =
        [("Version: ".data) ++ tag ++ (" — ".data) ++ title,
          ("Timestamp: ".data) ++ ts] := by
  have hV : '\n' ∉ ("Version: ".data) ++ tag := by
    intro hm
    rcases List.mem_append.mp hm with hm | hm
    · revert hm; decide
    · exact htag hm
  have hT : '\n' ∉ ("Timestamp: ".data) ++ ts := by
    intro hm
    rcases List.mem_append.mp hm with hm | hm
    · revert hm; decide
    · exact hts hm
  have hTsplit : splitOnNl ((("Timestamp: ".data) ++ ts) ++ ['\n']) =
      [("Timestamp: ".data) ++ ts, []] := by
    have h := splitOnNl_append ((("Timestamp: ".data) ++ ts) ++ ts.take 0) []
    simp only [List.take_zero, List.append_nil] at h
    rw [splitOnNl_no_nl hT] at h
    simpa using h
  constructor
  · have hM : final_msg_main cm tag ts =
        cm ++ '\n' :: ('\n' :: ((("Version: ".data) ++ tag) ++
          '\n' :: ((("Timestamp: ".data) ++ ts) ++ ['\n']))) := by
      simp [final_msg_main]
    have hVsplit : splitOnNl ((("Version: ".data) ++ tag) ++
        '\n' :: ((("Timestamp: ".data) ++ ts) ++ ['\n'])) =
        [("Version: ".data) ++ tag, ("Timestamp: ".data) ++ ts, []] := by
      rw [splitOnNl_append, splitOnNl_no_nl hV, hTsplit]
      rfl
    have hsplit : splitOnNl (final_msg_main cm tag ts) =
        (splitOnNl cm).dropLast ++ ((splitOnNl cm).getLastD []) ::
          ([] :: [("Version: ".data) ++ tag, ("Timestamp: ".data) ++ ts, []]) := by
      rw [hM, splitOnNl_append, splitOnNl_cons_nl, hVsplit]
    have hlast : (final_msg_main cm tag ts).getLast? = some '\n' := by
      have hM2 : final_msg_main cm tag ts =
          (cm ++ '\n' :: '\n' :: (("Version: ".data) ++ tag) ++
            '\n' :: (("Timestamp: ".data) ++ ts)) ++ ['\n'] := by
        simp [final_msg_main]
      rw [hM2, List.getLast?_concat]
    have hM_ne : final_msg_main cm tag ts ≠ [] := by
      rw [hM]
      simp
    have hsl : splitlines (final_msg_main cm tag ts) =
        (splitOnNl (final_msg_main cm tag ts)).dropLast := by
      unfold splitlines
      rw [if_neg hM_ne, if_pos hlast]
    refine ⟨(splitOnNl cm).dropLast ++ [((splitOnNl cm).getLastD []), []], ?_⟩
    rw [hsl, hsplit]
    have hre : (splitOnNl cm).dropLast ++ ((splitOnNl cm).getLastD []) ::
        ([] :: [("Version: ".data) ++ tag, ("Timestamp: ".data) ++ ts, []]) =
        ((splitOnNl cm).dropLast ++ [((splitOnNl cm).getLastD []), [],
          ("Version: ".data) ++ tag, ("Timestamp: ".data) ++ ts]) ++ [[]] := by
      simp
    rw [hre, List.dropLast_concat]
    simp
  · have hVD : '\n' ∉ ("Version: ".data) ++ tag ++ (" — ".data) ++ title := by
      intro hm
      rcases List.mem_append.mp hm with hm | hm
      · rcases List.mem_append.mp hm with hm | hm
        · rcases List.mem_append.mp hm with hm | hm
          · revert hm; decide
          · exact htag hm
        · revert hm; decide
      · exact htitle hm
    have hG : final_msg_gup tag title ts cm =
        (("Version: ".data) ++ tag ++ (" — ".data) ++ title) ++
          '\n' :: ((("Timestamp: ".data) ++ ts) ++
            '\n' :: ('\n' :: (cm ++ ['\n']))) := by
      simp [final_msg_gup]
    have hsplit : splitOnNl (final_msg_gup tag title ts cm) =
        (("Version: ".data) ++ tag ++ (" — ".data) ++ title) ::
          (("Timestamp: ".data) ++ ts) :: [] :: splitOnNl (cm ++ ['\n']) := by
      rw [hG, splitOnNl_append, splitOnNl_no_nl hVD, splitOnNl_append,
        splitOnNl_no_nl hT, splitOnNl_cons_nl]
      rfl
    have hlast : (final_msg_gup tag title ts cm).getLast? = some '\n' := by
      have hG2 : final_msg_gup tag title ts cm =
          (("Version: ".data) ++ tag ++ (" — ".data) ++ title ++
            '\n' :: (("Timestamp: ".data) ++ ts) ++ '\n' :: '\n' :: cm) ++
            ['\n'] := by
        simp [final_msg_gup]
      rw [hG2, List.getLast?_concat]
    have hG_ne : final_msg_gup tag title ts cm ≠ [] := by
      rw [hG]
      simp
    have hsl : splitlines (final_msg_gup tag title ts cm) =
        (splitOnNl (final_msg_gup tag title ts cm)).dropLast := by
      unfold splitlines
      rw [if_neg hG_ne, if_pos hlast]
    rw [hsl, hsplit]
    have hS := splitOnNl_ne_nil (cm ++ ['\n'])
    rw [List.dropLast_cons_of_ne_nil (by simp),
      List.dropLast_cons_of_ne_nil (by simp),
      List.dropLast_cons_of_ne_nil hS]
    rfl

/-- Witness for C6 at concrete message parts. -/
theorem claim_C6_trailer_position_witness :
    ∃ pre, splitlines (final_msg_main ("body".data) ("v1.2.4".data)
        ("2025-01-01 00:00:00".data)) =
      pre ++ [("Version: ".data) ++ ("v1.2.4".data),
        ("Timestamp: ".data) ++ ("2025-01-01 00:00:00".data)] :=
  (claim_C6_trailer_position ("body".data) ("v1.2.4".data) ("t".data)
    ("2025-01-01 00:00:00".data) (by decide) (by decide) (by decide)).1
